import Mathlib

/-!
Verification of the singly-linked LIFO stack from the repository
`sasakiy84/too-many-linked-list` (files `src/first.rs` and `src/second.rs`).

Both Rust variants are shallowly embedded: the heap-owned chain of nodes
becomes an inductive type, `&mut self` methods become explicit
state-passing functions `List T → ... × List T`, and `Option<T>` becomes
`Option T`.  `Box` is ownership-only and has no observable content beyond
the node it holds, so it is erased.
-/

set_option linter.unusedVariables false

/-! ## Embedding of `src/first.rs` -/

namespace First

mutual

/-- `enum Link<T> { Empty, More(Box<Node<T>>) }` from `first.rs`. -/
inductive Link (T : Type) : Type where
  | Empty : Link T
  | More : Node T → Link T

/-- `struct Node<T> { elem: T, next: Link<T> }` from `first.rs`. -/
inductive Node (T : Type) : Type where
  | mk : T → Link T → Node T

end

variable {T : Type}

/-- Field accessor `node.elem`. -/
def Node.elem : Node T → T
  | .mk e _ => e

/-- Field accessor `node.next`. -/
def Node.next : Node T → Link T
  | .mk _ n => n

/-- `struct List<T> { head: Link<T> }` from `first.rs`. -/
structure List (T : Type) : Type where
  head : Link T

/-- `List::new`: `List { head: Link::Empty }`. -/
def List.new : List T := { head := Link.Empty }

/-- Derived `Default` for `Link` (`#[default]` on the `Empty` variant). -/
def Link.default : Link T := Link.Empty

/-- Derived `Default` for `List`: `List { head: Link::default() }`. -/
def List.default : List T := { head := Link.default }

/-- `List::push`: the new node's `next` is the previous head link (taken
out with `mem::replace(&mut self.head, Link::Empty)`), and the new node
becomes the head. -/
def List.push (l : List T) (elem : T) : List T :=
  let new_node : Node T := Node.mk elem l.head
  { head := Link.More new_node }

/-- `List::pop`: `mem::replace` takes the head, an `Empty` head gives
`None` with the head left `Empty`, a `More(node)` head moves `node.next`
into the head and returns `Some(node.elem)`. -/
def List.pop (l : List T) : Option T × List T :=
  match l.head with
  | Link.Empty => (Option.none, { head := Link.Empty })
  | Link.More node => (Option.some node.elem, { head := node.next })

/-- `List::pop_node`: like `pop` but returns the detached node itself,
with its `next` field emptied by `mem::replace(&mut node.next, Link::Empty)`
after that link was moved into the list head. -/
def List.pop_node (l : List T) : Link T × List T :=
  match l.head with
  | Link.Empty => (Link.Empty, { head := Link.Empty })
  | Link.More node =>
      (Link.More (Node.mk node.elem Link.Empty), { head := node.next })

/-- Number of nodes in a chain (used only to justify loop termination). -/
def Link.length : Link T → Nat
  | .Empty => 0
  | .More (.mk _ next) => Link.length next + 1

/-- `impl Drop for List`: `while let Link::More(_) = self.pop_node() {}`.
The returned state is the list after the loop has finished. -/
def List.drop (l : List T) : List T :=
  match h : l.pop_node with
  | (Link.Empty, l') => l'
  | (Link.More _, l') => List.drop l'
termination_by l.head.length
decreasing_by
  cases hh : l.head with
  | Empty => simp [List.pop_node, hh] at h
  | More node =>
      cases node with
      | mk e nx =>
          simp [List.pop_node, hh] at h
          simp [← h.2, hh, Link.length, Node.next]

end First

/-! ## Embedding of `src/second.rs` -/

namespace Second

/-- `struct Node<T> { elem: T, next: Link<T> }` with
`type Link<T> = Option<Box<Node<T>>>` from `second.rs` (the `Link`
occurrence is inlined as `Option (Node T)` because Lean structures cannot
be recursive; the `Link` abbreviation is recovered below). -/
inductive Node (T : Type) : Type where
  | mk : T → Option (Node T) → Node T

/-- `type Link<T> = Option<Box<Node<T>>>` from `second.rs`. -/
abbrev Link (T : Type) : Type := Option (Node T)

variable {T : Type}

/-- Field accessor `node.elem`. -/
def Node.elem : Node T → T
  | .mk e _ => e

/-- Field accessor `node.next`. -/
def Node.next : Node T → Link T
  | .mk _ n => n

/-- `struct List<T> { head: Link<T> }` from `second.rs`. -/
structure List (T : Type) : Type where
  head : Link T

/-- `List::new`: `List { head: Link::None }`. -/
def List.new : List T := { head := Option.none }

/-- Derived `Default` for `List`: `List { head: Option::default() }`,
and `Option::default()` is `None`. -/
def List.default : List T := { head := Option.none }

/-- `List::push`: the new node's `next` is `self.head.take()` (the
previous head link), and the new node becomes the head. -/
def List.push (l : List T) (elem : T) : List T :=
  let new_node : Node T := Node.mk elem l.head
  { head := Option.some new_node }

/-- `List::pop`: `self.head.take().map(|node| { self.head = node.next; node.elem })`. -/
def List.pop (l : List T) : Option T × List T :=
  match l.head with
  | Option.none => (Option.none, { head := Option.none })
  | Option.some node => (Option.some node.elem, { head := node.next })

/-- `List::pop_node`: detaches the head node, moving `node.next.take()`
into the list head so the returned node's own `next` is `None`. -/
def List.pop_node (l : List T) : Link T × List T :=
  match l.head with
  | Option.none => (Option.none, { head := Option.none })
  | Option.some node =>
      (Option.some (Node.mk node.elem Option.none), { head := node.next })

/-- `List::peek`: `self.head.as_ref().map(|node| &node.elem)`; the method
takes `&self`, so it is a pure observation returning the referent of the
returned shared reference. -/
def List.peek (l : List T) : Option T :=
  l.head.map Node.elem

/-- `List::peek_mut`: `self.head.as_mut().map(|node| &mut node.elem)`;
modelled by its read component here (the referent of the returned mutable
reference). -/
def List.peek_mut (l : List T) : Option T :=
  l.head.map Node.elem

/-- Writing through the reference returned by `peek_mut`, i.e. the test
pattern `if let Some(value) = list.peek_mut() { *value = v }`: the top
node's `elem` field is overwritten in place; when `peek_mut` returns
`None` nothing is written. -/
def List.peek_mut_write (l : List T) (v : T) : List T :=
  match l.head with
  | Option.none => { head := Option.none }
  | Option.some node => { head := Option.some (Node.mk v node.next) }

/-- Chain length of a `second.rs` link. -/
def Node.size : Node T → Nat
  | .mk _ Option.none => 1
  | .mk _ (Option.some n) => Node.size n + 1

/-- Chain length of a `second.rs` link. -/
def Link.length : Link T → Nat
  | Option.none => 0
  | Option.some n => n.size

/-- `impl Drop for List`: `while self.pop_node().is_some() {}`. -/
def List.drop (l : List T) : List T :=
  match h : l.pop_node with
  | (Option.none, l') => l'
  | (Option.some _, l') => List.drop l'
termination_by l.head.length
decreasing_by
  cases hh : l.head with
  | none => simp [List.pop_node, hh] at h
  | some node =>
      cases node with
      | mk e nx =>
          simp [List.pop_node, hh] at h
          cases nx with
          | none => simp [← h.2, hh, Link.length, Node.size, Node.next]
          | some m => simp [← h.2, hh, Link.length, Node.size, Node.next]

/-- `struct IntoIter<T>(List<T>)` from `second.rs`; the single unnamed
tuple field `.0` is called `inner` here. -/
structure IntoIter (T : Type) : Type where
  inner : List T

/-- `List::into_iter`: `IntoIter(self)`. -/
def List.into_iter (l : List T) : IntoIter T := IntoIter.mk l

/-- `Iterator::next` for `IntoIter`: `self.0.pop()`. -/
def IntoIter.next (it : IntoIter T) : Option T × IntoIter T :=
  let p := it.inner.pop
  (p.1, IntoIter.mk p.2)

end Second

/-! ## Observable element sequences (front-to-back) -/

/-- Front-to-back element sequence of a `first.rs` chain. -/
def firstLinkElems {T : Type} : First.Link T → List T
  | First.Link.Empty => []
  | First.Link.More (First.Node.mk e nx) => e :: firstLinkElems nx

/-- Front-to-back element sequence of a `first.rs` list. -/
def firstElems {T : Type} (l : First.List T) : List T :=
  firstLinkElems l.head

/-- Front-to-back element sequence of a `second.rs` chain. -/
def secondLinkElems {T : Type} : Second.Link T → List T
  | Option.none => []
  | Option.some (Second.Node.mk e nx) => e :: secondLinkElems nx

/-- Front-to-back element sequence of a `second.rs` list. -/
def secondElems {T : Type} (l : Second.List T) : List T :=
  secondLinkElems l.head

/-! ## Iterated operations -/

/-- Push every element of `xs`, leftmost first, onto `l` (`second.rs`). -/
def pushAllSecond {T : Type} (l : Second.List T) : List T → Second.List T
  | [] => l
  | x :: xs => pushAllSecond (l.push x) xs

/-- Pop `n` times from `l`, recording every result (`second.rs`). -/
def popTimesSecond {T : Type} : Nat → Second.List T → List (Option T) × Second.List T
  | 0, l => ([], l)
  | n + 1, l =>
      let p := l.pop
      let q := popTimesSecond n p.2
      (p.1 :: q.1, q.2)

/-- Call `next` on the consuming iterator `n` times, recording every result. -/
def nextTimes {T : Type} : Nat → Second.IntoIter T → List (Option T) × Second.IntoIter T
  | 0, it => ([], it)
  | n + 1, it =>
      let p := it.next
      let q := nextTimes n p.2
      (p.1 :: q.1, q.2)

/-! ## Basic lemmas for the `second.rs` variant -/

section SecondLemmas

variable {T : Type}

lemma secondLinkElems_mk (x : T) (o : Second.Link T) :
    secondLinkElems (Option.some (Second.Node.mk x o)) = x :: secondLinkElems o := by
  cases o <;> simp [secondLinkElems]

lemma secondElems_new : secondElems (Second.List.new : Second.List T) = [] := by
  simp [secondElems, Second.List.new, secondLinkElems]

lemma secondElems_push (l : Second.List T) (x : T) :
    secondElems (l.push x) = x :: secondElems l := by
  simp [Second.List.push, secondElems, secondLinkElems_mk]

lemma secondElems_nil_iff (l : Second.List T) :
    secondElems l = [] ↔ l.head = Option.none := by
  cases hh : l.head with
  | none => simp [secondElems, hh, secondLinkElems]
  | some node =>
      cases node with
      | mk e nx => simp [secondElems, hh, secondLinkElems_mk]

lemma secondPop_fst (l : Second.List T) :
    (l.pop).1 = (secondElems l).head? := by
  cases hh : l.head with
  | none => simp [Second.List.pop, hh, secondElems, secondLinkElems]
  | some node =>
      cases node with
      | mk e nx =>
          simp [Second.List.pop, hh, secondElems, secondLinkElems_mk, Second.Node.elem]

lemma secondPop_snd (l : Second.List T) :
    secondElems (l.pop).2 = (secondElems l).tail := by
  cases hh : l.head with
  | none => simp [Second.List.pop, hh, secondElems, secondLinkElems]
  | some node =>
      cases node with
      | mk e nx =>
          simp [Second.List.pop, hh, secondElems, secondLinkElems_mk, Second.Node.next]

lemma secondPop_empty (l : Second.List T) (h : l.head = Option.none) :
    l.pop = (Option.none, l) := by
  cases l with
  | mk hd => cases h; rfl

lemma popTimesSecond_emptyList (k : Nat) (l : Second.List T) (h : l.head = Option.none) :
    popTimesSecond k l = (List.replicate k Option.none, l) := by
  induction k generalizing l with
  | zero => simp [popTimesSecond]
  | succ n ih =>
      cases l with
      | mk hd =>
          cases h
          simp [popTimesSecond, Second.List.pop, List.replicate, ih]

lemma popTimesSecond_spec (xs : List T) :
    ∀ (k : Nat) (l : Second.List T), secondElems l = xs →
      popTimesSecond (xs.length + k) l
        = (xs.map Option.some ++ List.replicate k Option.none, Second.List.new) := by
  induction xs with
  | nil =>
      intro k l h
      have hh : l.head = Option.none := (secondElems_nil_iff l).1 h
      cases l with
      | mk hd =>
          cases hh
          simpa [Second.List.new] using popTimesSecond_emptyList k (Second.List.mk Option.none) rfl
  | cons x xs ih =>
      intro k l h
      cases hl : l.head with
      | none =>
          rw [(secondElems_nil_iff l).2 hl] at h
          exact absurd h (by simp)
      | some node =>
          cases node with
          | mk e nx =>
              have hx : e = x ∧ secondLinkElems nx = xs := by
                have : secondElems l = e :: secondLinkElems nx := by
                  simp [secondElems, hl, secondLinkElems_mk]
                rw [this] at h
                exact ⟨(List.cons.injEq _ _ _ _ ▸ h).1, (List.cons.injEq _ _ _ _ ▸ h).2⟩
              have harith : (x :: xs).length + k = (xs.length + k) + 1 := by
                simp [List.length_cons]; omega
              rw [harith]
              have hpop : l.pop = (Option.some e, Second.List.mk nx) := by
                simp [Second.List.pop, hl, Second.Node.elem, Second.Node.next]
              have hrec := ih k (Second.List.mk nx) (by simpa [secondElems] using hx.2)
              simp [popTimesSecond, hpop, hrec, hx.1]

end SecondLemmas

/-! ## Basic lemmas for the `first.rs` variant -/

section FirstLemmas

variable {T : Type}

lemma firstLinkElems_mk (x : T) (o : First.Link T) :
    firstLinkElems (First.Link.More (First.Node.mk x o)) = x :: firstLinkElems o := by
  cases o <;> simp [firstLinkElems]

lemma firstElems_new : firstElems (First.List.new : First.List T) = [] := by
  simp [firstElems, First.List.new, firstLinkElems]

lemma firstElems_push (l : First.List T) (x : T) :
    firstElems (l.push x) = x :: firstElems l := by
  simp [First.List.push, firstElems, firstLinkElems_mk]

lemma firstElems_nil_iff (l : First.List T) :
    firstElems l = [] ↔ l.head = First.Link.Empty := by
  cases hh : l.head with
  | Empty => simp [firstElems, hh, firstLinkElems]
  | More node =>
      cases node with
      | mk e nx => simp [firstElems, hh, firstLinkElems_mk]

lemma firstPop_fst (l : First.List T) :
    (l.pop).1 = (firstElems l).head? := by
  cases hh : l.head with
  | Empty => simp [First.List.pop, hh, firstElems, firstLinkElems]
  | More node =>
      cases node with
      | mk e nx =>
          simp [First.List.pop, hh, firstElems, firstLinkElems_mk, First.Node.elem]

lemma firstPop_snd (l : First.List T) :
    firstElems (l.pop).2 = (firstElems l).tail := by
  cases hh : l.head with
  | Empty => simp [First.List.pop, hh, firstElems, firstLinkElems]
  | More node =>
      cases node with
      | mk e nx =>
          simp [First.List.pop, hh, firstElems, firstLinkElems_mk, First.Node.next]

lemma secondPeek_head? (l : Second.List T) :
    l.peek = (secondElems l).head? := by
  cases hh : l.head with
  | none => simp [Second.List.peek, hh, secondElems, secondLinkElems]
  | some node =>
      cases node with
      | mk e nx =>
          simp [Second.List.peek, hh, secondElems, secondLinkElems_mk, Second.Node.elem]

lemma secondElems_pushAll (xs : List T) :
    ∀ l : Second.List T, secondElems (pushAllSecond l xs) = xs.reverse ++ secondElems l := by
  induction xs with
  | nil => intro l; simp [pushAllSecond]
  | cons x xs ih =>
      intro l
      simp [pushAllSecond, ih, secondElems_push]

end FirstLemmas

lemma nextTimes_eq {T : Type} (n : Nat) : ∀ it : Second.IntoIter T,
    nextTimes n it
      = ((popTimesSecond n it.inner).1,
         Second.IntoIter.mk (popTimesSecond n it.inner).2) := by
  induction n with
  | zero => intro it; simp [nextTimes, popTimesSecond]
  | succ m ih =>
      intro it
      simp [nextTimes, popTimesSecond, Second.IntoIter.next, ih]

/-! ## Claim theorems (part 1) -/

/-- Claim C1: LIFO ordering.  Pushing `e1, …, en` (in that order) onto a
freshly constructed `second.rs` list and then popping `n` times yields
`en, …, e1` in that order, and every further pop (any `k` extra pops)
returns `None`, leaving the empty list. -/
theorem claim_C1 {T : Type} (xs : List T) (k : Nat) :
    popTimesSecond (xs.length + k) (pushAllSecond Second.List.new xs)
      = (xs.reverse.map Option.some ++ List.replicate k Option.none,
         Second.List.new) := by
  have h := popTimesSecond_spec xs.reverse k (pushAllSecond Second.List.new xs)
    (by simp [secondElems_pushAll, secondElems_new])
  simpa [List.length_reverse] using h

/-- Claim C3: the consuming iterator refines `pop`.  Every `next` call
returns exactly the result of `pop` on the underlying list (and keeps
the popped list as the new underlying state), so iterating over
`into_iter` of a list built by pushes yields the elements most-recently-
pushed first, then `None` on every one of the `k` further calls. -/
theorem claim_C3 {T : Type} (it : Second.IntoIter T) (xs : List T) (k : Nat) :
    it.next = ((it.inner.pop).1, Second.IntoIter.mk (it.inner.pop).2)
    ∧ nextTimes (xs.length + k) ((pushAllSecond Second.List.new xs).into_iter)
        = (xs.reverse.map Option.some ++ List.replicate k Option.none,
           Second.List.new.into_iter) := by
  constructor
  · rfl
  · rw [nextTimes_eq]
    have h := popTimesSecond_spec xs.reverse k (pushAllSecond Second.List.new xs)
      (by simp [secondElems_pushAll, secondElems_new])
    rw [List.length_reverse] at h
    simp [Second.List.into_iter, h]

/-- Claim C4: pop on an empty list is a no-op signalling absence, in both
variants: it returns `None` and leaves the list unchanged (still empty). -/
theorem claim_C4 {T : Type} (l : Second.List T) (m : First.List T)
    (hl : secondElems l = []) (hm : firstElems m = []) :
    l.pop = (Option.none, l) ∧ m.pop = (Option.none, m) := by
  constructor
  · have h := (secondElems_nil_iff l).1 hl
    cases l with
    | mk hd => cases h; rfl
  · have h := (firstElems_nil_iff m).1 hm
    cases m with
    | mk hd => cases h; rfl

/-- Witness for C4 at the freshly constructed lists over `Nat`. -/
theorem claim_C4_witness :
    (Second.List.new : Second.List Nat).pop = (Option.none, Second.List.new)
    ∧ (First.List.new : First.List Nat).pop = (Option.none, First.List.new) :=
  claim_C4 Second.List.new First.List.new
    (by simp [secondElems, Second.List.new, secondLinkElems])
    (by simp [firstElems, First.List.new, firstLinkElems])

/-- Claim C5: push/pop round trip.  `push x` makes `x` the new head node
with the previous head chain as its successor, and an immediately
following `pop` returns `Some x` and restores exactly the previous list. -/
theorem claim_C5 {T : Type} (l : Second.List T) (x : T) :
    (l.push x).head = Option.some (Second.Node.mk x l.head)
    ∧ (l.push x).pop = (Option.some x, l) :=
  ⟨rfl, rfl⟩

/-- Claim C6: peek observes the top without mutating.  On an empty list
`peek` and `peek_mut` return `None`; after `push x`, `peek` returns a
reference whose referent is `x`; and `peek` is a pure read of the element
sequence (it takes `&self`, so the sequence is unchanged by construction). -/
theorem claim_C6 {T : Type} (l m : Second.List T) (x : T)
    (hm : secondElems m = []) :
    m.peek = Option.none ∧ m.peek_mut = Option.none
    ∧ (l.push x).peek = Option.some x
    ∧ l.peek = (secondElems l).head? := by
  have h := (secondElems_nil_iff m).1 hm
  exact ⟨by simp [Second.List.peek, h], by simp [Second.List.peek_mut, h],
    rfl, secondPeek_head? l⟩

/-- Witness for C6 at the empty list over `Nat` with `x = 0`. -/
theorem claim_C6_witness :
    (Second.List.new : Second.List Nat).peek = Option.none
    ∧ (Second.List.new : Second.List Nat).peek_mut = Option.none
    ∧ (Second.List.push Second.List.new (0 : Nat)).peek = Option.some 0
    ∧ (Second.List.new : Second.List Nat).peek
        = (secondElems (Second.List.new : Second.List Nat)).head? :=
  claim_C6 Second.List.new Second.List.new 0
    (by simp [secondElems, Second.List.new, secondLinkElems])

/-- Claim C7: writes through `peek_mut` are visible to later reads.
After `push 3`, writing `42` through the `peek_mut` reference updates the
top node in place (same node, same `next` chain), and a subsequent `peek`
observes `42` while a subsequent `pop` returns `Some 42` and the original
underlying list. -/
theorem claim_C7 (l : Second.List Nat) :
    ((l.push 3).peek_mut_write 42).head = Option.some (Second.Node.mk 42 l.head)
    ∧ ((l.push 3).peek_mut_write 42).peek = Option.some 42
    ∧ ((l.push 3).peek_mut_write 42).pop = (Option.some 42, l) :=
  ⟨rfl, rfl, rfl⟩

/-- Claim C9: frame property of `peek_mut`.  For a non-empty list, writing
`v` through the `peek_mut` reference changes only the top element: the
element sequence becomes `v` followed by the unchanged remainder, the
length is unchanged, and the head node keeps its `next` chain; reading
through `peek_mut` without writing is a pure observation of the top
element (the list is unchanged by construction). -/
theorem claim_C9 {T : Type} (l : Second.List T) (n : Second.Node T) (v : T)
    (h : l.head = Option.some n) :
    secondElems (l.peek_mut_write v) = v :: (secondElems l).tail
    ∧ (secondElems (l.peek_mut_write v)).length = (secondElems l).length
    ∧ (l.peek_mut_write v).head = Option.some (Second.Node.mk v n.next)
    ∧ l.peek_mut = Option.some n.elem := by
  cases n with
  | mk e nx =>
      refine ⟨?_, ?_, ?_, ?_⟩
      · simp [Second.List.peek_mut_write, h, secondElems, secondLinkElems_mk,
          Second.Node.next]
      · simp [Second.List.peek_mut_write, h, secondElems, secondLinkElems_mk,
          Second.Node.next]
      · simp [Second.List.peek_mut_write, h, Second.Node.next]
      · simp [Second.List.peek_mut, h, Second.Node.elem]

/-- Witness for C9 at the singleton list `[1]` over `Nat`, writing `5`. -/
theorem claim_C9_witness :
    ((Second.List.push (Second.List.new : Second.List Nat) 1).peek_mut_write 5).head
      = Option.some (Second.Node.mk 5 Option.none) :=
  (claim_C9 (Second.List.push Second.List.new 1)
    (Second.Node.mk 1 Option.none) 5 rfl).2.2.1

/-- Claim C10: the derived `Default` builds the same value as `new` in both
variants — an empty list on which `pop`, `peek` and `peek_mut` all signal
absence. -/
theorem claim_C10 (T : Type) :
    (First.List.default : First.List T) = First.List.new
    ∧ (Second.List.default : Second.List T) = Second.List.new
    ∧ (Second.List.default : Second.List T).pop = (Option.none, Second.List.default)
    ∧ (Second.List.default : Second.List T).peek = Option.none
    ∧ (Second.List.default : Second.List T).peek_mut = Option.none
    ∧ (First.List.default : First.List T).pop = (Option.none, First.List.default) :=
  ⟨rfl, rfl, rfl, rfl, rfl, rfl⟩

/-! ## The teardown loop as iterated `pop_node` -/

/-- Run `pop_node` `n` times on a `first.rs` list, recording every result. -/
def popNodeTimesFirst {T : Type} : Nat → First.List T → List (First.Link T) × First.List T
  | 0, l => ([], l)
  | n + 1, l =>
      let p := l.pop_node
      let q := popNodeTimesFirst n p.2
      (p.1 :: q.1, q.2)

/-- Run `pop_node` `n` times on a `second.rs` list, recording every result. -/
def popNodeTimesSecond {T : Type} : Nat → Second.List T → List (Second.Link T) × Second.List T
  | 0, l => ([], l)
  | n + 1, l =>
      let p := l.pop_node
      let q := popNodeTimesSecond n p.2
      (p.1 :: q.1, q.2)

section DropLemmas

variable {T : Type}

lemma first_drop_unfold (l : First.List T) :
    First.List.drop l = (match l.pop_node with
      | (First.Link.Empty, l') => l'
      | (First.Link.More _, l') => First.List.drop l') := by
  rw [First.List.drop]
  split <;> rename_i heq <;> rw [heq]

lemma second_drop_unfold (l : Second.List T) :
    Second.List.drop l = (match l.pop_node with
      | (Option.none, l') => l'
      | (Option.some _, l') => Second.List.drop l') := by
  rw [Second.List.drop]
  split <;> rename_i heq <;> rw [heq]

lemma popNodeTimesFirst_emptyList (k : Nat) (l : First.List T)
    (h : l.head = First.Link.Empty) :
    popNodeTimesFirst k l = (List.replicate k First.Link.Empty, l) := by
  induction k generalizing l with
  | zero => simp [popNodeTimesFirst]
  | succ n ih =>
      cases l with
      | mk hd =>
          cases h
          simp [popNodeTimesFirst, First.List.pop_node, List.replicate, ih]

lemma popNodeTimesFirst_spec (xs : List T) :
    ∀ (k : Nat) (l : First.List T), firstElems l = xs →
      popNodeTimesFirst (xs.length + k) l
        = (xs.map (fun e => First.Link.More (First.Node.mk e First.Link.Empty))
            ++ List.replicate k First.Link.Empty,
           First.List.mk First.Link.Empty) := by
  induction xs with
  | nil =>
      intro k l h
      have hh : l.head = First.Link.Empty := (firstElems_nil_iff l).1 h
      cases l with
      | mk hd =>
          cases hh
          simpa using popNodeTimesFirst_emptyList k (First.List.mk First.Link.Empty) rfl
  | cons x xs ih =>
      intro k l h
      cases hl : l.head with
      | Empty =>
          rw [(firstElems_nil_iff l).2 hl] at h
          exact absurd h (by simp)
      | More node =>
          cases node with
          | mk e nx =>
              have hE : firstElems l = e :: firstLinkElems nx := by
                simp [firstElems, hl, firstLinkElems_mk]
              rw [hE] at h
              have hx1 : e = x := (List.cons.injEq _ _ _ _ ▸ h).1
              have hx2 : firstLinkElems nx = xs := (List.cons.injEq _ _ _ _ ▸ h).2
              have harith : (x :: xs).length + k = (xs.length + k) + 1 := by
                simp [List.length_cons]; omega
              rw [harith]
              have hpop : l.pop_node
                  = (First.Link.More (First.Node.mk e First.Link.Empty),
                     First.List.mk nx) := by
                simp [First.List.pop_node, hl, First.Node.elem, First.Node.next]
              have hrec := ih k (First.List.mk nx) (by simpa [firstElems] using hx2)
              simp [popNodeTimesFirst, hpop, hrec, hx1]

lemma dropFirst_empty (xs : List T) :
    ∀ l : First.List T, firstElems l = xs →
      First.List.drop l = First.List.mk First.Link.Empty := by
  induction xs with
  | nil =>
      intro l h
      have hh := (firstElems_nil_iff l).1 h
      rw [first_drop_unfold]
      cases l with
      | mk hd => cases hh; simp [First.List.pop_node]
  | cons x xs ih =>
      intro l h
      cases hl : l.head with
      | Empty =>
          rw [(firstElems_nil_iff l).2 hl] at h
          exact absurd h (by simp)
      | More node =>
          cases node with
          | mk e nx =>
              have hpop : l.pop_node
                  = (First.Link.More (First.Node.mk e First.Link.Empty),
                     First.List.mk nx) := by
                simp [First.List.pop_node, hl, First.Node.elem, First.Node.next]
              rw [first_drop_unfold, hpop]
              have hE : firstElems l = e :: firstLinkElems nx := by
                simp [firstElems, hl, firstLinkElems_mk]
              rw [hE] at h
              have hxs : firstElems (First.List.mk nx) = xs := by
                simpa [firstElems] using (List.cons.injEq _ _ _ _ ▸ h).2
              exact ih (First.List.mk nx) hxs

lemma popNodeTimesSecond_emptyList (k : Nat) (l : Second.List T)
    (h : l.head = Option.none) :
    popNodeTimesSecond k l = (List.replicate k Option.none, l) := by
  induction k generalizing l with
  | zero => simp [popNodeTimesSecond]
  | succ n ih =>
      cases l with
      | mk hd =>
          cases h
          simp [popNodeTimesSecond, Second.List.pop_node, List.replicate, ih]

lemma popNodeTimesSecond_spec (xs : List T) :
    ∀ (k : Nat) (l : Second.List T), secondElems l = xs →
      popNodeTimesSecond (xs.length + k) l
        = (xs.map (fun e => Option.some (Second.Node.mk e Option.none))
            ++ List.replicate k Option.none,
           Second.List.mk Option.none) := by
  induction xs with
  | nil =>
      intro k l h
      have hh : l.head = Option.none := (secondElems_nil_iff l).1 h
      cases l with
      | mk hd =>
          cases hh
          simpa using popNodeTimesSecond_emptyList k (Second.List.mk Option.none) rfl
  | cons x xs ih =>
      intro k l h
      cases hl : l.head with
      | none =>
          rw [(secondElems_nil_iff l).2 hl] at h
          exact absurd h (by simp)
      | some node =>
          cases node with
          | mk e nx =>
              have hE : secondElems l = e :: secondLinkElems nx := by
                simp [secondElems, hl, secondLinkElems_mk]
              rw [hE] at h
              have hx1 : e = x := (List.cons.injEq _ _ _ _ ▸ h).1
              have hx2 : secondLinkElems nx = xs := (List.cons.injEq _ _ _ _ ▸ h).2
              have harith : (x :: xs).length + k = (xs.length + k) + 1 := by
                simp [List.length_cons]; omega
              rw [harith]
              have hpop : l.pop_node
                  = (Option.some (Second.Node.mk e Option.none),
                     Second.List.mk nx) := by
                simp [Second.List.pop_node, hl, Second.Node.elem, Second.Node.next]
              have hrec := ih k (Second.List.mk nx) (by simpa [secondElems] using hx2)
              simp [popNodeTimesSecond, hpop, hrec, hx1]

lemma dropSecond_empty (xs : List T) :
    ∀ l : Second.List T, secondElems l = xs →
      Second.List.drop l = Second.List.mk Option.none := by
  induction xs with
  | nil =>
      intro l h
      have hh := (secondElems_nil_iff l).1 h
      rw [second_drop_unfold]
      cases l with
      | mk hd => cases hh; simp [Second.List.pop_node]
  | cons x xs ih =>
      intro l h
      cases hl : l.head with
      | none =>
          rw [(secondElems_nil_iff l).2 hl] at h
          exact absurd h (by simp)
      | some node =>
          cases node with
          | mk e nx =>
              have hpop : l.pop_node
                  = (Option.some (Second.Node.mk e Option.none),
                     Second.List.mk nx) := by
                simp [Second.List.pop_node, hl, Second.Node.elem, Second.Node.next]
              rw [second_drop_unfold, hpop]
              have hE : secondElems l = e :: secondLinkElems nx := by
                simp [secondElems, hl, secondLinkElems_mk]
              rw [hE] at h
              have hxs : secondElems (Second.List.mk nx) = xs := by
                simpa [secondElems] using (List.cons.injEq _ _ _ _ ▸ h).2
              exact ih (Second.List.mk nx) hxs

end DropLemmas

/-! ## Shared-interface operation sequences -/

/-- A call on the shared `new/push/pop` interface of the two variants. -/
inductive Op (T : Type) : Type where
  | push : T → Op T
  | pop : Op T

/-- Run a sequence of interface calls on a `first.rs` list, recording the
result of every `pop` (a `push` returns unit and records nothing). -/
def runFirst {T : Type} : First.List T → List (Op T) → List (Option T) × First.List T
  | l, [] => ([], l)
  | l, Op.push x :: ops => runFirst (l.push x) ops
  | l, Op.pop :: ops =>
      let p := l.pop
      let q := runFirst p.2 ops
      (p.1 :: q.1, q.2)

/-- Run a sequence of interface calls on a `second.rs` list, recording the
result of every `pop`. -/
def runSecond {T : Type} : Second.List T → List (Op T) → List (Option T) × Second.List T
  | l, [] => ([], l)
  | l, Op.push x :: ops => runSecond (l.push x) ops
  | l, Op.pop :: ops =>
      let p := l.pop
      let q := runSecond p.2 ops
      (p.1 :: q.1, q.2)

lemma run_agree {T : Type} (ops : List (Op T)) :
    ∀ (l1 : First.List T) (l2 : Second.List T),
      firstElems l1 = secondElems l2 →
      (runFirst l1 ops).1 = (runSecond l2 ops).1
      ∧ firstElems (runFirst l1 ops).2 = secondElems (runSecond l2 ops).2 := by
  induction ops with
  | nil => intro l1 l2 h; exact ⟨rfl, h⟩
  | cons op ops ih =>
      intro l1 l2 h
      cases op with
      | push x =>
          have := ih (l1.push x) (l2.push x)
            (by rw [firstElems_push, secondElems_push, h])
          exact ⟨this.1, this.2⟩
      | pop =>
          have h1 : (First.List.pop l1).1 = (Second.List.pop l2).1 := by
            rw [firstPop_fst, secondPop_fst, h]
          have h2 : firstElems (First.List.pop l1).2
              = secondElems (Second.List.pop l2).2 := by
            rw [firstPop_snd, secondPop_snd, h]
          have hr := ih (First.List.pop l1).2 (Second.List.pop l2).2 h2
          simp [runFirst, runSecond, hr.1, hr.2, h1]

/-! ## Claim theorems (part 2) -/

/-- Claim C2: teardown is a terminating loop of `pop_node` steps, in both
variants.  Running the `pop_node` loop for exactly as many steps as there
are nodes detaches every node exactly once, in front-to-back order, each
detached node carrying its element but with its `next` link already
emptied (so releasing it releases no further node — the O(1)-stack-depth
mechanism); every later step returns the empty link (the loop's exit
condition), the final state has an empty head, and `drop` computes
exactly the final state of that loop. -/
theorem claim_C2 {T : Type} (l : First.List T) (m : Second.List T) (k : Nat) :
    First.List.drop l = (popNodeTimesFirst (firstElems l).length l).2
    ∧ popNodeTimesFirst ((firstElems l).length + k) l
        = ((firstElems l).map
             (fun e => First.Link.More (First.Node.mk e First.Link.Empty))
            ++ List.replicate k First.Link.Empty,
           First.List.mk First.Link.Empty)
    ∧ Second.List.drop m = (popNodeTimesSecond (secondElems m).length m).2
    ∧ popNodeTimesSecond ((secondElems m).length + k) m
        = ((secondElems m).map
             (fun e => Option.some (Second.Node.mk e Option.none))
            ++ List.replicate k Option.none,
           Second.List.mk Option.none) := by
  have hf := popNodeTimesFirst_spec (firstElems l) k l rfl
  have hf0 := popNodeTimesFirst_spec (firstElems l) 0 l rfl
  have hs := popNodeTimesSecond_spec (secondElems m) k m rfl
  have hs0 := popNodeTimesSecond_spec (secondElems m) 0 m rfl
  refine ⟨?_, hf, ?_, hs⟩
  · rw [dropFirst_empty (firstElems l) l rfl]
    simp at hf0
    rw [hf0]
  · rw [dropSecond_empty (secondElems m) m rfl]
    simp at hs0
    rw [hs0]

/-- Claim C8: the two variants are behaviourally equivalent on their
shared `new`/`push`/`pop` interface.  Starting from freshly constructed
lists and running any sequence of calls with the same arguments, every
`pop` returns the same result in both variants, and the final lists hold
the same element sequence. -/
theorem claim_C8 {T : Type} (ops : List (Op T)) :
    (runFirst First.List.new ops).1 = (runSecond Second.List.new ops).1
    ∧ firstElems (runFirst First.List.new ops).2
        = secondElems (runSecond Second.List.new ops).2 :=
  run_agree ops First.List.new Second.List.new
    (by rw [firstElems_new, secondElems_new])
